import Mathlib

/-!
Verification development for the neo4j graph uploader (src/upload.py).

The source is shallowly embedded: property mappings become association
lists in insertion order (Python dicts preserve insertion order and have
unique keys), `None` values become `Option.none`, the `EDGE_REGEX`
prefix-anchored match becomes an executable backtracking matcher with the
same greedy semantics, and the transactional orchestrator (`upload_graph`
and `main`) becomes a statement-trace semantics parameterised by a store
oracle that decides which statement executions succeed.
-/

namespace Neo4jUpload

/-- Scalar property values carried by the graph description. -/
inductive JScalar where
  | str (s : String)
  | num (n : Int)
  | boolean (b : Bool)
deriving DecidableEq

/-- A property value: a scalar or a sequence of scalars. -/
inductive JValue where
  | scalar (s : JScalar)
  | arr (vs : List JScalar)
deriving DecidableEq

/-- Bound query parameters: named placeholders mapped to values. -/
abbrev Params := List (String × JValue)

/-- Embedding of the dataclass `Neo4jItem` (src/upload.py lines 25-31):
a label together with a property mapping.  The mapping is an association
list in insertion order; a `none` value models Python `None`. -/
structure Neo4jItem where
  label : String
  properties : List (String × Option JValue)
deriving DecidableEq

/-- The null-filtered property dictionary built on src/upload.py line 51:
`{k: v for k, v in self.properties.items() if v is not None}`. -/
def filteredProps (props : List (String × Option JValue)) : List (String × JValue) :=
  props.filterMap (fun kv => kv.2.map (fun v => (kv.1, v)))

/-- The parameter naming scheme `f"{identifier}_{k}"` (src/upload.py lines 54 and 57). -/
def paramName (identifier k : String) : String :=
  identifier ++ "_" ++ k

/-- One property entry of the emitted property-list text,
`f"{k}: ${identifier}_{k}"` (src/upload.py line 54). -/
def propFragment (identifier k : String) : String :=
  k ++ ": $" ++ paramName identifier k

/-- The emitted property-list text (src/upload.py line 54):
`"{" + ", ".join(...) + "}"`. -/
def midText (identifier : String) (keys : List String) : String :=
  "\x7b" ++ String.intercalate ", " (keys.map (propFragment identifier)) ++ "\x7d"

/-- Embedding of `Neo4jItem.query_str` (src/upload.py lines 33-57).
`opening`/`closing` stand for the class-level OPENING/CLOSING markers
("(" and ")" for `Node`, "[" and "]" for `Edge`). -/
def Neo4jItem.query_str (opening closing : String) (item : Neo4jItem)
    (identifier : String) : String × Params :=
  let properties := filteredProps item.properties
  (opening ++ identifier ++ ": " ++ item.label ++ " " ++
     midText identifier (properties.map (fun kv => kv.1)) ++ closing,
   properties.map (fun kv => (paramName identifier kv.1, kv.2)))

/-- `Edge.Direction` (src/upload.py lines 70-72). -/
inductive Direction where
  | left
  | right
deriving DecidableEq

/-- `DIRECTION_NAME_TABLE` (src/upload.py lines 75-78). -/
def DIRECTION_NAME_TABLE : List (String × Direction) :=
  [("->", Direction.right), ("<-", Direction.left)]

/-- The character class `[a-zA-Z0-9.,\-_ ]` of `NODE_ID_PATTERN`
(src/upload.py line 11). -/
def isIdChar (c : Char) : Bool :=
  c.isAlpha || c.isDigit || c = '.' || c = ',' || c = '-' || c = '_' || c = ' '

/-- Longest prefix of id-class characters together with the remainder
(the greedy `[a-zA-Z0-9.,\-_ ]+` quantifier). -/
def takeIdRun : List Char → List Char × List Char
  | [] => ([], [])
  | c :: cs =>
    if isIdChar c then
      let p := takeIdRun cs
      (c :: p.1, p.2)
    else ([], c :: cs)

/-- The alternation `(<-|->)`: match one direction token at the head. -/
def tryDir : List Char → Option (String × List Char)
  | '<' :: '-' :: rest => some ("<-", rest)
  | '-' :: '>' :: rest => some ("->", rest)
  | _ => none

/-- Backtracking search of the regex engine for
`(id+)(<-|->)(id+)` anchored at the start: group 1 is greedy and gives
back one character at a time (from the reversed candidate `g1rev`) until
the direction token and a non-empty group 3 match. -/
def edgeBacktrack : List Char → List Char → Option (List Char × String × List Char)
  | [], _ => none
  | c :: g1rev, rest =>
    match tryDir rest with
    | some (tok, rest2) =>
      let g3 := (takeIdRun rest2).1
      if g3.isEmpty then edgeBacktrack g1rev (c :: rest)
      else some ((c :: g1rev).reverse, tok, g3)
    | none => edgeBacktrack g1rev (c :: rest)

/-- `EDGE_REGEX.pattern` (src/upload.py line 12). -/
def EDGE_PATTERN : String :=
  "([a-zA-Z0-9.,\\-_ ]+)(<-|->)([a-zA-Z0-9.,\\-_ ]+)"

/-- `EDGE_REGEX.match(eid)` (src/upload.py lines 12 and 128): anchored at
the start of the string only; returns groups 1-3 on success. -/
def edge_regex_match (s : String) : Option (String × String × String) :=
  let p := takeIdRun s.toList
  match edgeBacktrack p.1.reverse p.2 with
  | some (g1, tok, g3) => some (String.mk g1, tok, String.mk g3)
  | none => none

/-- Parsing an edge identifier as the orchestrator does
(src/upload.py lines 128-149): regex match, then the direction token is
mapped through `DIRECTION_NAME_TABLE`. -/
def parse (s : String) : Option (String × Direction × String) :=
  match edge_regex_match s with
  | some (l, tok, r) =>
    match DIRECTION_NAME_TABLE.find? (fun p => p.1 == tok) with
    | some p => some (l, p.2, r)
    | none => none
  | none => none

/-- A statement sent to the store: query text plus bound parameters. -/
structure Query where
  text : String
  params : Params
deriving DecidableEq

/-- The statement built by `create_node` (src/upload.py lines 81-89). -/
def create_node_query (node : Neo4jItem) : Query :=
  let p := Neo4jItem.query_str "(" ")" node "n"
  ⟨"CREATE " ++ p.1, p.2⟩

/-- `left_symbol` (src/upload.py line 102). -/
def left_symbol (direction : Direction) : String :=
  if direction = Direction.left then "<-" else "-"

/-- `right_symbol` (src/upload.py line 103). -/
def right_symbol (direction : Direction) : String :=
  if direction = Direction.right then "->" else "-"

/-- Python dict merge `{**a, **b}`: on a key collision the right mapping
wins, and lookups on disjoint keys see both mappings. -/
def dictUnion (a b : Params) : Params :=
  a.filter (fun kv => (b.find? (fun kv2 => kv2.1 == kv.1)).isNone) ++ b

/-- The statement built by `create_edge` (src/upload.py lines 91-114). -/
def create_edge_query (node1 node2 edge : Neo4jItem) (direction : Direction) : Query :=
  let p1 := Neo4jItem.query_str "(" ")" node1 "n1"
  let p2 := Neo4jItem.query_str "(" ")" node2 "n2"
  let pe := Neo4jItem.query_str "[" "]" edge "n"
  ⟨"\n        MATCH " ++ p1.1 ++
   "\n        MATCH " ++ p2.1 ++
   "\n        CREATE (n1)" ++ left_symbol direction ++ pe.1 ++
     right_symbol direction ++ "(n2)\n    ",
   dictUnion (dictUnion p1.2 p2.2) pe.2⟩

/-- Origin of an issued statement: which call site of `tx.run` issued it. -/
inductive Tag where
  | clearRel
  | clearNode
  | node (nid : String)
  | edge (eid : String)
deriving DecidableEq

/-- A statement as issued inside the transaction, tagged with its origin. -/
structure Issued where
  tag : Tag
  query : Query
deriving DecidableEq

/-- The exceptions the run can terminate with: the two orchestrator
errors raised in `upload_graph` (src/upload.py lines 131 and 140), a
dictionary `KeyError` (provably unreachable for matched direction
tokens), and a failure reported by the store on `tx.run`. -/
inductive UploadError where
  | malformedEdge (eid : String) (expected : String)
  | unknownNode (eid : String) (nid : String)
  | keyError (tok : String)
  | storeFailure (q : Query)
deriving DecidableEq

/-- The external store collaborator: decides which statement executions
succeed (`true`) and which raise a store error. -/
abbrev StoreOracle := Query → Bool

/-- Python `nodes[nid]` / `nid in nodes` on the insertion-ordered dict. -/
def lookupNode (nodes : List (String × Neo4jItem)) (nid : String) : Option Neo4jItem :=
  (nodes.find? (fun p => p.1 == nid)).map (fun p => p.2)

/-- The node-creation loop of `upload_graph` (src/upload.py lines 124-125):
returns the statements issued in order, and the terminating error if any. -/
def runNodes (ora : StoreOracle) : List (String × Neo4jItem) → List Issued × Option UploadError
  | [] => ([], none)
  | (nid, node) :: rest =>
    let q := create_node_query node
    if ora q then
      let r := runNodes ora rest
      (⟨Tag.node nid, q⟩ :: r.1, r.2)
    else ([], some (UploadError.storeFailure q))

/-- The edge loop of `upload_graph` (src/upload.py lines 127-150): parse
the edge id, check both endpoints against the node dict (left first),
resolve the direction token, and issue the edge statement. -/
def runEdges (ora : StoreOracle) (nodes : List (String × Neo4jItem)) :
    List (String × Neo4jItem) → List Issued × Option UploadError
  | [] => ([], none)
  | (eid, edge) :: rest =>
    match edge_regex_match eid with
    | none => ([], some (UploadError.malformedEdge eid EDGE_PATTERN))
    | some (l, tok, r) =>
      match lookupNode nodes l with
      | none => ([], some (UploadError.unknownNode eid l))
      | some n1 =>
        match lookupNode nodes r with
        | none => ([], some (UploadError.unknownNode eid r))
        | some n2 =>
          match DIRECTION_NAME_TABLE.find? (fun p => p.1 == tok) with
          | none => ([], some (UploadError.keyError tok))
          | some dp =>
            let q := create_edge_query n1 n2 edge dp.2
            if ora q then
              let res := runEdges ora nodes rest
              (⟨Tag.edge eid, q⟩ :: res.1, res.2)
            else ([], some (UploadError.storeFailure q))

/-- `upload_graph` (src/upload.py lines 116-150): all node statements
first, then the edge loop; an exception propagates immediately. -/
def upload_graph (ora : StoreOracle) (nodes edges : List (String × Neo4jItem)) :
    List Issued × Option UploadError :=
  match runNodes ora nodes with
  | (isN, some e) => (isN, some e)
  | (isN, none) =>
    match runEdges ora nodes edges with
    | (isE, r) => (isN ++ isE, r)

/-- `tx.run("MATCH (a)-[e]-(b) DELETE e;")` (src/upload.py line 181). -/
def CLEAR_EDGES_QUERY : Query := ⟨"MATCH (a)-[e]-(b) DELETE e;", []⟩

/-- `tx.run("MATCH (n) DELETE n;")` (src/upload.py line 182). -/
def CLEAR_NODES_QUERY : Query := ⟨"MATCH (n) DELETE n;", []⟩

/-- The optional clear phase of `main` (src/upload.py lines 180-182). -/
def runClear (ora : StoreOracle) (clear : Bool) : List Issued × Option UploadError :=
  if clear then
    if ora CLEAR_EDGES_QUERY then
      if ora CLEAR_NODES_QUERY then
        ([⟨Tag.clearRel, CLEAR_EDGES_QUERY⟩, ⟨Tag.clearNode, CLEAR_NODES_QUERY⟩], none)
      else ([⟨Tag.clearRel, CLEAR_EDGES_QUERY⟩],
            some (UploadError.storeFailure CLEAR_NODES_QUERY))
    else ([], some (UploadError.storeFailure CLEAR_EDGES_QUERY))
  else ([], none)

/-- Interactions of `main` with the transaction. -/
inductive Action where
  | run (i : Issued)
  | rollback
  | commit
deriving DecidableEq

/-- The transactional body of `main` (src/upload.py lines 177-192):
optional clear, then `upload_graph`; on any exception `tx.rollback()` and
a non-zero exit (the returned error), otherwise `tx.commit()`. -/
def mainRun (ora : StoreOracle) (clear : Bool) (nodes edges : List (String × Neo4jItem)) :
    List Action × Option UploadError :=
  match runClear ora clear with
  | (isC, some e) => (isC.map Action.run ++ [Action.rollback], some e)
  | (isC, none) =>
    match upload_graph ora nodes edges with
    | (isU, some e) => ((isC ++ isU).map Action.run ++ [Action.rollback], some e)
    | (isU, none) => ((isC ++ isU).map Action.run ++ [Action.commit], none)

/-- Store-side transaction machine: `run` buffers a statement, `rollback`
discards the buffer, `commit` makes the buffer durable. -/
def applyAction (st : List Query × List Query) (a : Action) : List Query × List Query :=
  match a with
  | Action.run i => (st.1 ++ [i.query], st.2)
  | Action.rollback => ([], st.2)
  | Action.commit => ([], st.2 ++ st.1)

/-- The statements durably committed by a sequence of actions. -/
def committedQueries (acts : List Action) : List Query :=
  (acts.foldl applyAction ([], [])).2

/-- The statements issued (sent through `tx.run`) by a sequence of actions. -/
def issuedOf (acts : List Action) : List Issued :=
  acts.filterMap (fun a => match a with | Action.run i => some i | _ => none)

/-- Modelled from the spec: the WHOLE string has the shape
`<leftId><direction><rightId>` — one or more id-class characters, a
direction token, then one or more id-class characters reaching the end
of the string (claim C4's reading of the grammar). -/
def wholeShape (s : String) : Bool :=
  let cs := s.toList
  (List.range (cs.length + 1)).any (fun k =>
    decide (1 ≤ k) && (cs.take k).all isIdChar &&
      (match tryDir (cs.drop k) with
       | some (_, rest) => !rest.isEmpty && rest.all isIdChar
       | none => false))

/-- Modelled from the spec: some PREFIX of the string, anchored at the
start, has the shape `<leftId><direction><rightId char>` — one or more
id-class characters, a direction token, then at least one id-class
character; the rest of the string is ignored. -/
def prefixShape (s : String) : Bool :=
  let cs := s.toList
  (List.range (cs.length + 1)).any (fun k =>
    decide (1 ≤ k) && (cs.take k).all isIdChar &&
      (match tryDir (cs.drop k) with
       | some (_, rest) => (match rest with | c :: _ => isIdChar c | [] => false)
       | none => false))

/-- Modelled from the spec: the property mapping with every null-valued
key dropped (the representation the spec says both creation and matching
must share). -/
def specDropNulls (props : List (String × Option JValue)) : List (String × Option JValue) :=
  props.filter (fun kv => kv.2.isSome)

/-- A direction token sits at the head of `xs` and is followed by at
least one id-class character (the condition under which the regex can
complete a match at a given split point). -/
def dirHead (xs : List Char) : Bool :=
  match tryDir xs with
  | some (_, rest) => (match rest with | c :: _ => isIdChar c | [] => false)
  | none => false

theorem filteredProps_specDropNulls (props : List (String × Option JValue)) :
    filteredProps (specDropNulls props) = filteredProps props := by
  induction props with
  | nil => rfl
  | cons kv rest ih =>
    cases kv with
    | mk k v =>
      cases v <;> simp [specDropNulls, filteredProps, List.filter_cons, ih] <;>
        simpa [specDropNulls, filteredProps] using ih

theorem paramName_inj (i a b : String) (h : paramName i a = paramName i b) : a = b := by
  have hd := congrArg String.data h
  simp [paramName, String.data_append] at hd
  cases a; cases b; simp_all

theorem mem_filteredProps_of_some (props : List (String × Option JValue)) (k : String)
    (v : JValue) (h : (k, some v) ∈ props) : (k, v) ∈ filteredProps props := by
  simp only [filteredProps, List.mem_filterMap]
  exact ⟨(k, some v), h, rfl⟩

theorem filteredKeys_sublist (props : List (String × Option JValue)) :
    ((filteredProps props).map (fun kv => kv.1)).Sublist (props.map (fun kv => kv.1)) := by
  induction props with
  | nil => simp [filteredProps]
  | cons kv rest ih =>
    obtain ⟨k, v⟩ := kv
    cases v with
    | none => simpa [filteredProps, List.filterMap_cons] using List.Sublist.cons _ ih
    | some w => simpa [filteredProps, List.filterMap_cons] using List.Sublist.cons₂ k ih

theorem not_mem_filteredKeys_of_none (props : List (String × Option JValue)) (k : String)
    (hnd : (props.map (fun kv => kv.1)).Nodup)
    (h : (k, (none : Option JValue)) ∈ props) :
    k ∉ (filteredProps props).map (fun kv => kv.1) := by
  intro hk
  simp only [List.mem_map] at hk
  obtain ⟨⟨k2, v⟩, hmem, hk2⟩ := hk
  simp only [filteredProps, List.mem_filterMap] at hmem
  obtain ⟨⟨k3, ov⟩, hmem3, hf⟩ := hmem
  cases ov with
  | none => simp at hf
  | some v3 =>
    simp at hf
    obtain ⟨hk3, hv3⟩ := hf
    have hfst : ((k3, some v3) : String × Option JValue).1 =
        ((k, (none : Option JValue)) : String × Option JValue).1 := by
      simp only [hk3]
      exact hk2
    have heq := List.inj_on_of_nodup_map hnd hmem3 h hfst
    simp at heq

theorem takeIdRun_append (cs : List Char) :
    (takeIdRun cs).1 ++ (takeIdRun cs).2 = cs := by
  induction cs with
  | nil => rfl
  | cons c cs ih =>
    by_cases h : isIdChar c <;> simp [takeIdRun, h, ih]

theorem takeIdRun_all (cs : List Char) : ((takeIdRun cs).1).all isIdChar = true := by
  induction cs with
  | nil => rfl
  | cons c cs ih =>
    by_cases h : isIdChar c <;> simp [takeIdRun, h, ih]

theorem takeIdRun_rest_head (cs : List Char) (c : Char) (cs' : List Char)
    (h : (takeIdRun cs).2 = c :: cs') : isIdChar c = false := by
  induction cs with
  | nil => simp [takeIdRun] at h
  | cons a as ih =>
    by_cases ha : isIdChar a
    · simp [takeIdRun, ha] at h
      exact ih h
    · simp [takeIdRun, ha] at h
      obtain ⟨h1, h2⟩ := h
      subst h1
      simpa using ha

theorem takeIdRun_fst_isEmpty (xs : List Char) :
    (takeIdRun xs).1.isEmpty = (match xs with | [] => true | c :: _ => !isIdChar c) := by
  cases xs with
  | nil => rfl
  | cons c cs => by_cases h : isIdChar c <;> simp [takeIdRun, h]

theorem bt_isSome (grev : List Char) : ∀ rest : List Char,
    (edgeBacktrack grev rest).isSome = true ↔
      ∃ k, 1 ≤ k ∧ k ≤ grev.length ∧ dirHead (grev.reverse.drop k ++ rest) = true := by
  induction grev with
  | nil =>
    intro rest
    simp [edgeBacktrack]
    omega
  | cons c grev' ih =>
    intro rest
    constructor
    · intro h
      rw [edgeBacktrack] at h
      cases htry : tryDir rest with
      | none =>
        rw [htry] at h
        obtain ⟨k, hk1, hk2, hk3⟩ := (ih (c :: rest)).mp h
        refine ⟨k, hk1, by simpa using Nat.le_succ_of_le hk2, ?_⟩
        rw [List.reverse_cons, List.drop_append_of_le_length (by simpa using hk2)]
        simpa using hk3
      | some p =>
        obtain ⟨tok, rest2⟩ := p
        simp only [htry] at h
        by_cases hemp : (takeIdRun rest2).1.isEmpty
        · simp only [hemp, if_true] at h
          obtain ⟨k, hk1, hk2, hk3⟩ := (ih (c :: rest)).mp h
          refine ⟨k, hk1, by simpa using Nat.le_succ_of_le hk2, ?_⟩
          rw [List.reverse_cons, List.drop_append_of_le_length (by simpa using hk2)]
          simpa using hk3
        · refine ⟨grev'.length + 1, by omega, by simp, ?_⟩
          rw [List.reverse_cons]
          have hlen : (grev'.reverse ++ [c]).length = grev'.length + 1 := by simp
          rw [show grev'.length + 1 = (grev'.reverse ++ [c]).length from hlen.symm,
              List.drop_length]
          simp only [List.nil_append, dirHead, htry]
          rw [takeIdRun_fst_isEmpty] at hemp
          cases rest2 with
          | nil => simp at hemp
          | cons c2 cs2 => simpa using hemp
    · rintro ⟨k, hk1, hk2, hk3⟩
      rw [edgeBacktrack]
      rcases Nat.lt_or_ge k (grev'.length + 1) with hlt | hge
      · -- k ≤ grev'.length: comes from the recursive call
        have hk2' : k ≤ grev'.length := by omega
        have hdrop : (c :: grev').reverse.drop k ++ rest =
            grev'.reverse.drop k ++ (c :: rest) := by
          rw [List.reverse_cons, List.drop_append_of_le_length (by simpa using hk2')]
          simp
        rw [hdrop] at hk3
        have hr := (ih (c :: rest)).mpr ⟨k, hk1, hk2', hk3⟩
        cases htry : tryDir rest with
        | none => simpa [htry] using hr
        | some p =>
          obtain ⟨tok, rest2⟩ := p
          by_cases hemp : (takeIdRun rest2).1.isEmpty
          · simpa [htry, hemp] using hr
          · simp [htry, hemp]
      · -- k = grev'.length + 1: the current attempt succeeds
        have hk : k = grev'.length + 1 := by
          simp at hk2
          omega
        subst hk
        have hdrop : (c :: grev').reverse.drop (grev'.length + 1) = [] := by
          rw [List.reverse_cons]
          rw [show grev'.length + 1 = (grev'.reverse ++ [c]).length by simp]
          exact List.drop_length _
        rw [hdrop, List.nil_append] at hk3
        unfold dirHead at hk3
        cases htry : tryDir rest with
        | none => rw [htry] at hk3; simp at hk3
        | some p =>
          obtain ⟨tok, rest2⟩ := p
          rw [htry] at hk3
          have hemp : (takeIdRun rest2).1.isEmpty = false := by
            rw [takeIdRun_fst_isEmpty]
            cases rest2 with
            | nil => simp at hk3
            | cons c2 cs2 => simpa using hk3
          simp [htry, hemp]

theorem dirHead_nil : dirHead [] = false := rfl

theorem dirHead_drop_ne (cs : List Char) (k : Nat) (h : dirHead (cs.drop k) = true) :
    k < cs.length := by
  by_contra hk
  push_neg at hk
  rw [List.drop_eq_nil_of_le hk] at h
  simp [dirHead_nil] at h

theorem prefixShape_iff (s : String) :
    prefixShape s = true ↔
      ∃ k, 1 ≤ k ∧ ((s.toList.take k).all isIdChar = true) ∧
        dirHead (s.toList.drop k) = true := by
  unfold prefixShape
  rw [List.any_eq_true]
  constructor
  · rintro ⟨k, hkmem, hbody⟩
    simp only [Bool.and_eq_true, decide_eq_true_eq] at hbody
    exact ⟨k, hbody.1.1, hbody.1.2, hbody.2⟩
  · rintro ⟨k, hk1, hall, hdir⟩
    refine ⟨k, ?_, ?_⟩
    · have := dirHead_drop_ne _ _ hdir
      simp only [List.mem_range]
      omega
    · simp only [Bool.and_eq_true, decide_eq_true_eq]
      exact ⟨⟨hk1, hall⟩, hdir⟩

theorem split_iff (s : String) :
    (∃ k, 1 ≤ k ∧ ((s.toList.take k).all isIdChar = true) ∧
        dirHead (s.toList.drop k) = true) ↔
      (∃ k, 1 ≤ k ∧ k ≤ (takeIdRun s.toList).1.length ∧
        dirHead ((takeIdRun s.toList).1.drop k ++ (takeIdRun s.toList).2) = true) := by
  set cs := s.toList with hcs
  set run := (takeIdRun cs).1 with hrun
  set rest := (takeIdRun cs).2 with hrest
  have happ : run ++ rest = cs := takeIdRun_append cs
  have hall : run.all isIdChar = true := takeIdRun_all cs
  constructor
  · rintro ⟨k, hk1, htake, hdir⟩
    have hkle : k ≤ run.length := by
      by_contra hgt
      push_neg at hgt
      cases hr : rest with
      | nil =>
        have hcseq : cs = run := by rw [← happ, hr, List.append_nil]
        have : k < cs.length := dirHead_drop_ne _ _ hdir
        rw [hcseq] at this
        omega
      | cons c' rest' =>
        have hc' : isIdChar c' = false := takeIdRun_rest_head cs c' rest' hr
        obtain ⟨j, hj⟩ : ∃ j, k = run.length + (j + 1) := ⟨k - run.length - 1, by omega⟩
        have htk : cs.take k = run ++ (c' :: rest'.take j) := by
          rw [← happ, hr, hj, List.take_append]
          rfl
        rw [htk] at htake
        simp [hc'] at htake
    refine ⟨k, hk1, hkle, ?_⟩
    have : cs.drop k = run.drop k ++ rest := by
      rw [← happ, List.drop_append_of_le_length hkle]
    rw [← this]
    exact hdir
  · rintro ⟨k, hk1, hkle, hdir⟩
    refine ⟨k, hk1, ?_, ?_⟩
    · have htk : cs.take k = run.take k := by
        rw [← happ, List.take_append_of_le_length hkle]
      rw [htk, List.all_eq_true]
      intro x hx
      exact (List.all_eq_true.mp hall) x (List.mem_of_mem_take hx)
    · have : cs.drop k = run.drop k ++ rest := by
        rw [← happ, List.drop_append_of_le_length hkle]
      rw [this]
      exact hdir

theorem edge_regex_match_isSome (s : String) :
    (edge_regex_match s).isSome = prefixShape s := by
  rw [Bool.eq_iff_iff]
  have h1 : (edge_regex_match s).isSome =
      (edgeBacktrack (takeIdRun s.toList).1.reverse (takeIdRun s.toList).2).isSome := by
    simp only [String.toList]
    cases hbt : edgeBacktrack (takeIdRun s.data).1.reverse (takeIdRun s.data).2 with
    | none => simp [edge_regex_match, hbt]
    | some v => obtain ⟨g1, tok, g3⟩ := v; simp [edge_regex_match, hbt]
  rw [h1, bt_isSome, prefixShape_iff, split_iff]
  simp only [List.reverse_reverse, List.length_reverse]

theorem find?_key_eq_some (l : Params) (k : String) (v : JValue)
    (hnd : (l.map (fun kv => kv.1)).Nodup) (h : (k, v) ∈ l) :
    l.find? (fun kv => kv.1 == k) = some (k, v) := by
  induction l with
  | nil => simp at h
  | cons kv0 rest ih =>
    obtain ⟨k0, v0⟩ := kv0
    simp only [List.map_cons, List.nodup_cons] at hnd
    rcases List.mem_cons.mp h with heq | hmem
    · injection heq with hk hv
      subst hk
      subst hv
      exact List.find?_cons_of_pos _ (by simp)
    · by_cases hk0 : k0 = k
      · exact absurd (List.mem_map.mpr ⟨(k, v), hmem, rfl⟩) (hk0 ▸ hnd.1)
      · rw [List.find?_cons_of_neg _ (by simp [hk0])]
        exact ih hnd.2 hmem

theorem find?_key_eq_none (l : Params) (k : String)
    (h : k ∉ l.map (fun kv => kv.1)) :
    l.find? (fun kv => kv.1 == k) = none := by
  rw [List.find?_eq_none]
  intro kv hkv hbeq
  exact h (List.mem_map.mpr ⟨kv, hkv, by simpa using hbeq⟩)

theorem dictUnion_find?_left (a b : Params) (k : String)
    (hk : k ∉ b.map (fun kv => kv.1)) :
    (dictUnion a b).find? (fun kv => kv.1 == k) = a.find? (fun kv => kv.1 == k) := by
  induction a with
  | nil =>
    simp only [dictUnion, List.filter_nil, List.nil_append, List.find?_nil]
    exact find?_key_eq_none b k hk
  | cons kv0 rest ih =>
    obtain ⟨k0, v0⟩ := kv0
    by_cases hk0 : k0 = k
    · subst hk0
      have hb : b.find? (fun kv2 => kv2.1 == k0) = none := find?_key_eq_none b k0 hk
      simp only [dictUnion, List.filter_cons]
      rw [if_pos (by simp [hb])]
      rw [List.cons_append, List.find?_cons_of_pos _ (by simp),
          List.find?_cons_of_pos _ (by simp)]
    · by_cases hkeep : ((b.find? (fun kv2 => kv2.1 == k0)).isNone : Bool)
      · simp only [dictUnion, List.filter_cons]
        rw [if_pos (by simpa using hkeep)]
        rw [List.cons_append, List.find?_cons_of_neg _ (by simp [hk0]),
            List.find?_cons_of_neg _ (by simp [hk0])]
        exact ih
      · simp only [dictUnion, List.filter_cons]
        rw [if_neg (by simpa using hkeep)]
        rw [List.find?_cons_of_neg _ (by simp [hk0])]
        exact ih

theorem dictUnion_find?_right (a b : Params) (k : String)
    (hk : k ∉ a.map (fun kv => kv.1)) :
    (dictUnion a b).find? (fun kv => kv.1 == k) = b.find? (fun kv => kv.1 == k) := by
  induction a with
  | nil => simp [dictUnion]
  | cons kv0 rest ih =>
    obtain ⟨k0, v0⟩ := kv0
    simp only [List.map_cons, List.mem_cons, not_or] at hk
    have hrest := ih (by exact fun hc => hk.2 hc)
    by_cases hkeep : ((b.find? (fun kv2 => kv2.1 == k0)).isNone : Bool)
    · simp only [dictUnion, List.filter_cons]
      rw [if_pos (by simpa using hkeep)]
      rw [List.cons_append, List.find?_cons_of_neg _ (by simp; exact fun hc => hk.1 hc.symm)]
      exact hrest
    · simp only [dictUnion, List.filter_cons]
      rw [if_neg (by simpa using hkeep)]
      exact hrest

theorem keys_dictUnion_subset (a b : Params) (k : String)
    (h : k ∈ (dictUnion a b).map (fun kv => kv.1)) :
    k ∈ a.map (fun kv => kv.1) ∨ k ∈ b.map (fun kv => kv.1) := by
  simp only [dictUnion, List.map_append, List.mem_append] at h
  rcases h with h | h
  · left
    obtain ⟨kv, hkv, hk⟩ := List.mem_map.mp h
    exact List.mem_map.mpr ⟨kv, List.mem_of_mem_filter hkv, hk⟩
  · right
    exact h

theorem paramName_n1_ne_n2 (a b : String) : paramName "n1" a ≠ paramName "n2" b := by
  intro h
  have hd := congrArg String.data h
  simp only [paramName, String.data_append] at hd
  simp at hd

theorem paramName_n1_ne_n (a b : String) : paramName "n1" a ≠ paramName "n" b := by
  intro h
  have hd := congrArg String.data h
  simp only [paramName, String.data_append] at hd
  simp at hd

theorem paramName_n2_ne_n (a b : String) : paramName "n2" a ≠ paramName "n" b := by
  intro h
  have hd := congrArg String.data h
  simp only [paramName, String.data_append] at hd
  simp at hd

theorem mem_paramKeys (item : Neo4jItem) (opening closing identifier k : String)
    (h : k ∈ ((Neo4jItem.query_str opening closing item identifier).2).map (fun kv => kv.1)) :
    ∃ k0, k0 ∈ (filteredProps item.properties).map (fun kv => kv.1) ∧
      k = paramName identifier k0 := by
  simp only [Neo4jItem.query_str, List.map_map, Function.comp] at h
  obtain ⟨kv, hkv, hk⟩ := List.mem_map.mp h
  exact ⟨kv.1, List.mem_map.mpr ⟨kv, hkv, rfl⟩, hk.symm⟩

theorem paramKeys_nodup (item : Neo4jItem) (opening closing identifier : String)
    (hnd : (item.properties.map (fun kv => kv.1)).Nodup) :
    (((Neo4jItem.query_str opening closing item identifier).2).map (fun kv => kv.1)).Nodup := by
  have h1 : ((filteredProps item.properties).map (fun kv => kv.1)).Nodup :=
    (filteredKeys_sublist item.properties).nodup hnd
  have h2 := List.Nodup.map (fun a b h => paramName_inj identifier a b h) h1
  simpa [Neo4jItem.query_str, List.map_map, Function.comp] using h2

theorem foldl_apply_runs (is : List Issued) (p c : List Query) :
    (is.map Action.run).foldl applyAction (p, c) = (p ++ is.map (fun i => i.query), c) := by
  induction is generalizing p with
  | nil => simp
  | cons i rest ih => simp [applyAction, ih]

theorem committed_runs_commit (is : List Issued) :
    committedQueries (is.map Action.run ++ [Action.commit]) = is.map (fun i => i.query) := by
  simp [committedQueries, List.foldl_append, foldl_apply_runs, applyAction]

theorem committed_runs_rollback (is : List Issued) :
    committedQueries (is.map Action.run ++ [Action.rollback]) = [] := by
  simp [committedQueries, List.foldl_append, foldl_apply_runs, applyAction]

theorem issuedOf_map_run (is : List Issued) : issuedOf (is.map Action.run) = is := by
  induction is with
  | nil => rfl
  | cons i rest ih =>
    simp only [issuedOf] at ih ⊢
    simp [List.filterMap_cons, ih]

theorem issuedOf_run_rollback (is : List Issued) :
    issuedOf (is.map Action.run ++ [Action.rollback]) = is := by
  simp only [issuedOf, List.filterMap_append] at *
  have h := issuedOf_map_run is
  simp only [issuedOf] at h
  simp [h]

theorem issuedOf_run_commit (is : List Issued) :
    issuedOf (is.map Action.run ++ [Action.commit]) = is := by
  simp only [issuedOf, List.filterMap_append] at *
  have h := issuedOf_map_run is
  simp only [issuedOf] at h
  simp [h]

theorem commit_not_mem_map_run (is : List Issued) :
    Action.commit ∉ is.map Action.run := by
  simp

theorem rollback_not_mem_map_run (is : List Issued) :
    Action.rollback ∉ is.map Action.run := by
  simp

theorem mainRun_shape (ora : StoreOracle) (clear : Bool)
    (nodes edges : List (String × Neo4jItem)) :
    (∃ (is : List Issued) (e : UploadError),
        mainRun ora clear nodes edges = (is.map Action.run ++ [Action.rollback], some e)) ∨
    (∃ is : List Issued,
        mainRun ora clear nodes edges = (is.map Action.run ++ [Action.commit], none)) := by
  rcases hC : runClear ora clear with ⟨isC, eC⟩
  cases eC with
  | some e =>
    left
    exact ⟨isC, e, by simp [mainRun, hC]⟩
  | none =>
    rcases hU : upload_graph ora nodes edges with ⟨isU, eU⟩
    cases eU with
    | some e =>
      left
      exact ⟨isC ++ isU, e, by simp [mainRun, hC, hU]⟩
    | none =>
      right
      exact ⟨isC ++ isU, by simp [mainRun, hC, hU]⟩

theorem runClear_tags_cases (ora : StoreOracle) (clear : Bool) :
    (runClear ora clear).1.map (fun i => i.tag) = [] ∨
    (runClear ora clear).1.map (fun i => i.tag) = [Tag.clearRel] ∨
    (runClear ora clear).1.map (fun i => i.tag) = [Tag.clearRel, Tag.clearNode] := by
  cases clear with
  | false => left; rfl
  | true =>
    by_cases h1 : ora CLEAR_EDGES_QUERY
    · by_cases h2 : ora CLEAR_NODES_QUERY
      · right; right; simp [runClear, h1, h2]
      · right; left; simp [runClear, h1, h2]
    · left; simp [runClear, h1]

theorem runClear_tags_mem (ora : StoreOracle) (clear : Bool) :
    ∀ i ∈ (runClear ora clear).1, i.tag = Tag.clearRel ∨ i.tag = Tag.clearNode := by
  cases clear with
  | false => simp [runClear]
  | true =>
    by_cases h1 : ora CLEAR_EDGES_QUERY
    · by_cases h2 : ora CLEAR_NODES_QUERY
      · simp [runClear, h1, h2]
      · simp [runClear, h1, h2]
    · simp [runClear, h1]

theorem runClear_none_tags (ora : StoreOracle)
    (h : (runClear ora true).2 = none) :
    (runClear ora true).1.map (fun i => i.tag) = [Tag.clearRel, Tag.clearNode] := by
  by_cases h1 : ora CLEAR_EDGES_QUERY
  · by_cases h2 : ora CLEAR_NODES_QUERY
    · simp [runClear, h1, h2]
    · simp [runClear, h1, h2] at h
  · simp [runClear, h1] at h

theorem runClear_ok (ora : StoreOracle) (clear : Bool) (hora : ∀ q, ora q = true) :
    (runClear ora clear).2 = none := by
  cases clear with
  | false => rfl
  | true => simp [runClear, hora CLEAR_EDGES_QUERY, hora CLEAR_NODES_QUERY]

theorem runNodes_tags (ora : StoreOracle) (ns : List (String × Neo4jItem)) :
    ∀ i ∈ (runNodes ora ns).1, ∃ nid, i.tag = Tag.node nid := by
  induction ns with
  | nil => simp [runNodes]
  | cons p rest ih =>
    obtain ⟨nid, node⟩ := p
    by_cases h : ora (create_node_query node)
    · simp only [runNodes, h, if_true]
      intro i hi
      rcases List.mem_cons.mp hi with heq | hmem
      · exact ⟨nid, by rw [heq]⟩
      · exact ih i hmem
    · simp [runNodes, h]

theorem runNodes_none_tags (ora : StoreOracle) (ns : List (String × Neo4jItem))
    (h : (runNodes ora ns).2 = none) :
    (runNodes ora ns).1.map (fun i => i.tag) = ns.map (fun p => Tag.node p.1) := by
  induction ns with
  | nil => rfl
  | cons p rest ih =>
    obtain ⟨nid, node⟩ := p
    by_cases hq : ora (create_node_query node)
    · simp only [runNodes, hq, if_true] at h ⊢
      simp [ih h]
    · simp [runNodes, hq] at h

theorem runNodes_ok (ora : StoreOracle) (ns : List (String × Neo4jItem))
    (hora : ∀ q, ora q = true) : (runNodes ora ns).2 = none := by
  induction ns with
  | nil => rfl
  | cons p rest ih =>
    obtain ⟨nid, node⟩ := p
    simp only [runNodes, hora (create_node_query node), if_true]
    exact ih

theorem tryDir_tok (xs : List Char) (p : String × List Char) (h : tryDir xs = some p) :
    p.1 = "<-" ∨ p.1 = "->" := by
  unfold tryDir at h
  split at h
  case h_1 => simp only [Option.some.injEq] at h; subst h; left; rfl
  case h_2 => simp only [Option.some.injEq] at h; subst h; right; rfl
  case h_3 => simp at h

theorem edgeBacktrack_tok (g : List Char) : ∀ (rest : List Char)
    (g1 : List Char) (tok : String) (g3 : List Char),
    edgeBacktrack g rest = some (g1, tok, g3) → tok = "<-" ∨ tok = "->" := by
  induction g with
  | nil => intro rest g1 tok g3 h; simp [edgeBacktrack] at h
  | cons c g' ih =>
    intro rest g1 tok g3 h
    rw [edgeBacktrack] at h
    cases htry : tryDir rest with
    | none =>
      rw [htry] at h
      exact ih _ _ _ _ h
    | some p =>
      obtain ⟨tok0, rest2⟩ := p
      simp only [htry] at h
      by_cases hemp : (takeIdRun rest2).1.isEmpty
      · rw [if_pos hemp] at h
        exact ih _ _ _ _ h
      · rw [if_neg hemp] at h
        have := tryDir_tok rest (tok0, rest2) htry
        simp only [Option.some.injEq, Prod.mk.injEq] at h
        obtain ⟨_, htok, _⟩ := h
        subst htok
        simpa using this

theorem edge_regex_match_tok (s : String) (l tok r : String)
    (h : edge_regex_match s = some (l, tok, r)) : tok = "<-" ∨ tok = "->" := by
  simp only [edge_regex_match] at h
  cases hbt : edgeBacktrack (takeIdRun s.toList).1.reverse (takeIdRun s.toList).2 with
  | none => rw [hbt] at h; simp at h
  | some v =>
    obtain ⟨g1, tok0, g3⟩ := v
    rw [hbt] at h
    simp only [Option.some.injEq, Prod.mk.injEq] at h
    obtain ⟨_, htok, _⟩ := h
    subst htok
    exact edgeBacktrack_tok _ _ _ _ _ hbt

theorem runEdges_resolvable (ora : StoreOracle) (nodes : List (String × Neo4jItem))
    (es : List (String × Neo4jItem)) :
    ∀ i ∈ (runEdges ora nodes es).1, ∃ eid l tok r n1 n2,
      i.tag = Tag.edge eid ∧ edge_regex_match eid = some (l, tok, r) ∧
      lookupNode nodes l = some n1 ∧ lookupNode nodes r = some n2 := by
  induction es with
  | nil => simp [runEdges]
  | cons p rest ih =>
    obtain ⟨eid, edge⟩ := p
    cases hm : edge_regex_match eid with
    | none => simp [runEdges, hm]
    | some t =>
      obtain ⟨l, tok, r⟩ := t
      cases hl : lookupNode nodes l with
      | none => simp [runEdges, hm, hl]
      | some n1 =>
        cases hr : lookupNode nodes r with
        | none => simp [runEdges, hm, hl, hr]
        | some n2 =>
          cases hd : DIRECTION_NAME_TABLE.find? (fun p => p.1 == tok) with
          | none => simp [runEdges, hm, hl, hr, hd]
          | some dp =>
            by_cases hq : ora (create_edge_query n1 n2 edge dp.2)
            · simp only [runEdges, hm, hl, hr, hd, hq, if_true]
              intro i hi
              rcases List.mem_cons.mp hi with heq | hmem
              · exact ⟨eid, l, tok, r, n1, n2, by rw [heq], hm, hl, hr⟩
              · exact ih i hmem
            · simp [runEdges, hm, hl, hr, hd, hq]

theorem runEdges_offender (ora : StoreOracle) (nodes : List (String × Neo4jItem))
    (hora : ∀ q, ora q = true) :
    ∀ es : List (String × Neo4jItem),
      (∀ p ∈ es, (edge_regex_match p.1).isSome = true) →
      (∃ p ∈ es, ∃ l tok r, edge_regex_match p.1 = some (l, tok, r) ∧
          (lookupNode nodes l = none ∨ lookupNode nodes r = none)) →
      ∃ eid nid, (runEdges ora nodes es).2 = some (UploadError.unknownNode eid nid) := by
  intro es
  induction es with
  | nil =>
    intro _ hoff
    simp at hoff
  | cons p rest ih =>
    intro hparse hoff
    obtain ⟨eid, edge⟩ := p
    have hp : (edge_regex_match eid).isSome = true :=
      hparse (eid, edge) (List.mem_cons_self _ _)
    cases hm : edge_regex_match eid with
    | none =>
      rw [hm] at hp
      simp at hp
    | some t =>
      obtain ⟨l, tok, r⟩ := t
      cases hl : lookupNode nodes l with
      | none => exact ⟨eid, l, by simp [runEdges, hm, hl]⟩
      | some n1 =>
        cases hr : lookupNode nodes r with
        | none => exact ⟨eid, r, by simp [runEdges, hm, hl, hr]⟩
        | some n2 =>
          have htok := edge_regex_match_tok eid l tok r hm
          obtain ⟨dp, hd⟩ : ∃ dp, DIRECTION_NAME_TABLE.find? (fun p => p.1 == tok) = some dp := by
            rcases htok with h | h <;> subst h <;> exact ⟨_, rfl⟩
          have hq := hora (create_edge_query n1 n2 edge dp.2)
          have hoff2 : ∃ p ∈ rest, ∃ l2 tok2 r2, edge_regex_match p.1 = some (l2, tok2, r2) ∧
              (lookupNode nodes l2 = none ∨ lookupNode nodes r2 = none) := by
            rcases hoff with ⟨p0, hp0mem, l2, tok2, r2, hm2, hnone⟩
            rcases List.mem_cons.mp hp0mem with heq | hmem
            · subst heq
              rw [hm] at hm2
              simp only [Option.some.injEq, Prod.mk.injEq] at hm2
              obtain ⟨hl2, _, hr2⟩ := hm2
              subst hl2
              subst hr2
              rcases hnone with hn | hn
              · rw [hl] at hn
                simp at hn
              · rw [hr] at hn
                simp at hn
            · exact ⟨p0, hmem, l2, tok2, r2, hm2, hnone⟩
          obtain ⟨eid2, nid2, hres⟩ :=
            ih (fun p hp2 => hparse p (List.mem_cons_of_mem _ hp2)) hoff2
          exact ⟨eid2, nid2, by simp [runEdges, hm, hl, hr, hd, hq, hres]⟩

theorem runEdges_none_parse (ora : StoreOracle) (nodes : List (String × Neo4jItem))
    (eid : String) (e : Neo4jItem) (rest : List (String × Neo4jItem))
    (h : edge_regex_match eid = none) :
    runEdges ora nodes ((eid, e) :: rest) =
      ([], some (UploadError.malformedEdge eid EDGE_PATTERN)) := by
  simp [runEdges, h]

theorem upload_graph_eq (ora : StoreOracle) (nodes edges : List (String × Neo4jItem))
    (isN : List Issued) (hN : runNodes ora nodes = (isN, none)) :
    upload_graph ora nodes edges =
      (isN ++ (runEdges ora nodes edges).1, (runEdges ora nodes edges).2) := by
  simp [upload_graph, hN]

theorem mainRun_full (ora : StoreOracle) (clear : Bool)
    (nodes edges : List (String × Neo4jItem))
    (h1 : (runClear ora clear).2 = none) (h2 : (runNodes ora nodes).2 = none) :
    issuedOf (mainRun ora clear nodes edges).1 =
      (runClear ora clear).1 ++ (runNodes ora nodes).1 ++ (runEdges ora nodes edges).1 ∧
    (mainRun ora clear nodes edges).2 = (runEdges ora nodes edges).2 := by
  rcases hC : runClear ora clear with ⟨isC, eC⟩
  rw [hC] at h1
  simp at h1
  subst h1
  rcases hN : runNodes ora nodes with ⟨isN, eN⟩
  rw [hN] at h2
  simp at h2
  subst h2
  have hU := upload_graph_eq ora nodes edges isN hN
  cases hE2 : (runEdges ora nodes edges).2 with
  | some e =>
    rw [hE2] at hU
    constructor
    · rw [show (mainRun ora clear nodes edges).1 =
          (isC ++ (isN ++ (runEdges ora nodes edges).1)).map Action.run ++ [Action.rollback]
        from by simp [mainRun, hC, hU]]
      rw [issuedOf_run_rollback]
      simp
    · simp [mainRun, hC, hU, hE2]
  | none =>
    rw [hE2] at hU
    constructor
    · rw [show (mainRun ora clear nodes edges).1 =
          (isC ++ (isN ++ (runEdges ora nodes edges).1)).map Action.run ++ [Action.commit]
        from by simp [mainRun, hC, hU]]
      rw [issuedOf_run_commit]
      simp
    · simp [mainRun, hC, hU, hE2]

/-- C5: parsing "A->B" yields left "A", direction RIGHT, right "B";
"A<-B" yields left "A", LEFT, right "B"; "not-an-edge" fails; the token
"->" maps to RIGHT and "<-" maps to LEFT in the direction table. -/
theorem c5_parse_examples :
    parse ("A->B") = some ("A", Direction.right, "B") ∧
    parse ("A<-B") = some ("A", Direction.left, "B") ∧
    parse ("not-an-edge") = none ∧
    (DIRECTION_NAME_TABLE.find? (fun p => p.1 == "->")).map (fun p => p.2) =
      some Direction.right ∧
    (DIRECTION_NAME_TABLE.find? (fun p => p.1 == "<-")).map (fun p => p.2) =
      some Direction.left := by
  decide

/-- C4 counterexample: the string "A->B!" is not of the whole-string
shape id+ direction id+ (it ends in "!"), yet the prefix-anchored
EDGE_REGEX match succeeds on it, refuting the claim that parsing
succeeds exactly when the whole string matches the shape. -/
theorem c4_counterexample :
    (edge_regex_match ("A->B!")).isSome = true ∧ wholeShape ("A->B!") = false := by
  decide

/-- C4 amended: parsing an edge identifier succeeds exactly when some
PREFIX of the string, anchored at the start, matches id+ direction id+
(the remainder of the string is ignored); and a string with no such
prefix fails the upload with an error carrying the offending identifier
and the expected regex pattern. -/
theorem c4_prefix_anchored_match (s : String) :
    (edge_regex_match s).isSome = prefixShape s ∧
    (∀ (ora : StoreOracle) (nodes : List (String × Neo4jItem)) (eid : String)
        (e : Neo4jItem) (rest : List (String × Neo4jItem)),
      edge_regex_match eid = none →
      runEdges ora nodes ((eid, e) :: rest) =
        ([], some (UploadError.malformedEdge eid EDGE_PATTERN))) := by
  refine ⟨edge_regex_match_isSome s, ?_⟩
  intro ora nodes eid e rest h
  exact runEdges_none_parse ora nodes eid e rest h

/-- C4 witness: the amended equivalence evaluated at "A->B!" (success
with a junk suffix) and the malformed-edge error at "not-an-edge". -/
theorem c4_witness :
    ((edge_regex_match ("A->B!")).isSome = prefixShape ("A->B!")) ∧
    runEdges (fun _ => true) [] [("not-an-edge", ⟨"E", []⟩)] =
      ([], some (UploadError.malformedEdge ("not-an-edge") EDGE_PATTERN)) :=
  ⟨(c4_prefix_anchored_match ("A->B!")).1,
   (c4_prefix_anchored_match ("x")).2 (fun _ => true) [] ("not-an-edge") ⟨"E", []⟩ []
     (by decide)⟩

/-- C1: the transactional body either fails — ending in a rollback, with
no commit action, leaving no statement committed — or every step
succeeds and it ends in exactly one commit with no rollback, committing
precisely the statements issued in the run. -/
theorem c1_transaction_atomicity (ora : StoreOracle) (clear : Bool)
    (nodes edges : List (String × Neo4jItem)) :
    ((mainRun ora clear nodes edges).2 = none →
       (mainRun ora clear nodes edges).1.count Action.commit = 1 ∧
       Action.rollback ∉ (mainRun ora clear nodes edges).1 ∧
       committedQueries (mainRun ora clear nodes edges).1 =
         (issuedOf (mainRun ora clear nodes edges).1).map (fun i => i.query)) ∧
    (∀ e, (mainRun ora clear nodes edges).2 = some e →
       Action.commit ∉ (mainRun ora clear nodes edges).1 ∧
       (mainRun ora clear nodes edges).1.getLast? = some Action.rollback ∧
       committedQueries (mainRun ora clear nodes edges).1 = []) := by
  rcases mainRun_shape ora clear nodes edges with ⟨is, e, heq⟩ | ⟨is, heq⟩
  · constructor
    · intro h
      rw [heq] at h
      simp at h
    · intro e' h
      rw [heq]
      refine ⟨?_, ?_, committed_runs_rollback is⟩
      · simp only [List.mem_append]
        rintro (hc | hc)
        · exact commit_not_mem_map_run is hc
        · simp at hc
      · exact List.getLast?_concat _
  · constructor
    · intro h
      rw [heq]
      refine ⟨?_, ?_, ?_⟩
      · rw [List.count_append]
        rw [List.count_eq_zero.mpr (commit_not_mem_map_run is)]
        simp
      · simp only [List.mem_append]
        rintro (hc | hc)
        · exact rollback_not_mem_map_run is hc
        · simp at hc
      · rw [committed_runs_commit, issuedOf_run_commit]
    · intro e' h
      rw [heq] at h
      simp at h

/-- C1 witness: a one-node run against an always-succeeding store ends
with exactly one commit, no rollback, and commits what it issued. -/
theorem c1_witness :
    (mainRun (fun _ => true) true
        [("A", ⟨"Person", [("name", some (JValue.scalar (JScalar.str "A")))]⟩)] []).2 =
      none ∧
    ((mainRun (fun _ => true) true
        [("A", ⟨"Person", [("name", some (JValue.scalar (JScalar.str "A")))]⟩)] []).1.count
        Action.commit = 1 ∧
     Action.rollback ∉ (mainRun (fun _ => true) true
        [("A", ⟨"Person", [("name", some (JValue.scalar (JScalar.str "A")))]⟩)] []).1 ∧
     committedQueries (mainRun (fun _ => true) true
        [("A", ⟨"Person", [("name", some (JValue.scalar (JScalar.str "A")))]⟩)] []).1 =
       (issuedOf (mainRun (fun _ => true) true
        [("A", ⟨"Person", [("name", some (JValue.scalar (JScalar.str "A")))]⟩)] []).1).map
         (fun i => i.query)) :=
  ⟨by decide,
   (c1_transaction_atomicity (fun _ => true) true
      [("A", ⟨"Person", [("name", some (JValue.scalar (JScalar.str "A")))]⟩)] []).1
     (by decide)⟩

/-- C2: serialization drops every null-valued key from both the emitted
property-list fragment generation and the bound parameters, keeps every
non-null key in both, names parameters identifier_key, and the emitted
text enumerates exactly the null-filtered keys. -/
theorem c2_null_properties_dropped (opening closing : String) (item : Neo4jItem)
    (identifier k : String)
    (hnd : (item.properties.map (fun kv => kv.1)).Nodup) :
    ((k, (none : Option JValue)) ∈ item.properties →
        k ∉ (filteredProps item.properties).map (fun kv => kv.1) ∧
        paramName identifier k ∉
          ((Neo4jItem.query_str opening closing item identifier).2).map (fun kv => kv.1)) ∧
    (∀ v : JValue, (k, some v) ∈ item.properties →
        k ∈ (filteredProps item.properties).map (fun kv => kv.1) ∧
        (paramName identifier k, v) ∈ (Neo4jItem.query_str opening closing item identifier).2) ∧
    (Neo4jItem.query_str opening closing item identifier).1 =
      opening ++ identifier ++ ": " ++ item.label ++ " " ++
        midText identifier ((filteredProps item.properties).map (fun kv => kv.1)) ++ closing := by
  refine ⟨fun hmem => ⟨not_mem_filteredKeys_of_none _ _ hnd hmem, ?_⟩,
          fun v hmem => ⟨?_, ?_⟩, rfl⟩
  · intro hp
    have hp2 : paramName identifier k ∈
        ((filteredProps item.properties).map (fun kv => kv.1)).map (paramName identifier) := by
      simpa [Neo4jItem.query_str, List.map_map, Function.comp] using hp
    obtain ⟨k2, hk2mem, hk2eq⟩ := List.mem_map.mp hp2
    have hk2 := paramName_inj _ _ _ hk2eq
    subst hk2
    exact not_mem_filteredKeys_of_none _ _ hnd hmem hk2mem
  · exact List.mem_map.mpr ⟨(k, v), mem_filteredProps_of_some _ _ _ hmem, rfl⟩
  · show (paramName identifier k, v) ∈
      (filteredProps item.properties).map (fun kv => (paramName identifier kv.1, kv.2))
    exact List.mem_map.mpr ⟨(k, v), mem_filteredProps_of_some _ _ _ hmem, rfl⟩

/-- C2 witness: the serialization contract evaluated on a node with a
null-valued "note" next to a non-null "name", at role "n". -/
theorem c2_witness :
    ((⟨"Person", [("name", some (JValue.scalar (JScalar.str "a"))), ("note", none)]⟩ :
        Neo4jItem).properties.map (fun kv => kv.1)).Nodup ∧
    (("note", (none : Option JValue)) ∈
        (⟨"Person", [("name", some (JValue.scalar (JScalar.str "a"))), ("note", none)]⟩ :
          Neo4jItem).properties →
      "note" ∉ (filteredProps (⟨"Person",
          [("name", some (JValue.scalar (JScalar.str "a"))), ("note", none)]⟩ :
          Neo4jItem).properties).map (fun kv => kv.1) ∧
      paramName "n" "note" ∉
        ((Neo4jItem.query_str "(" ")" ⟨"Person",
            [("name", some (JValue.scalar (JScalar.str "a"))), ("note", none)]⟩ "n").2).map
          (fun kv => kv.1)) :=
  ⟨by decide,
   ((c2_null_properties_dropped "(" ")"
      ⟨"Person", [("name", some (JValue.scalar (JScalar.str "a"))), ("note", none)]⟩
      "n" "note" (by decide)).1)⟩

/-- C3: the node fragment used for the match clauses at edge-creation
time comes from the same query_str as the node creation statement, only
at role "n1"/"n2" instead of "n"; and query_str at every role ignores
null-valued properties, so a node created with a null property is later
matched by exactly the fragment of its null-filtered self. -/
theorem c3_match_same_filtered_representation (node other e : Neo4jItem) (d : Direction) :
    create_node_query node =
      ⟨"CREATE " ++ (Neo4jItem.query_str "(" ")" node "n").1,
       (Neo4jItem.query_str "(" ")" node "n").2⟩ ∧
    (∃ rest : String, (create_edge_query node other e d).text =
        "\n        MATCH " ++ (Neo4jItem.query_str "(" ")" node "n1").1 ++ rest) ∧
    (∀ opening closing i : String,
        Neo4jItem.query_str opening closing node i =
          Neo4jItem.query_str opening closing ⟨node.label, specDropNulls node.properties⟩ i) := by
  refine ⟨rfl, ?_, ?_⟩
  · refine ⟨"\n        MATCH " ++ (Neo4jItem.query_str "(" ")" other "n2").1 ++
      "\n        CREATE (n1)" ++ left_symbol d ++ (Neo4jItem.query_str "[" "]" e "n").1 ++
      right_symbol d ++ "(n2)\n    ", ?_⟩
    simp [create_edge_query, String.append_assoc]
  · intro opening closing i
    simp [Neo4jItem.query_str, filteredProps_specDropNulls]

/-- C6: the edge-creation statement is two match clauses — the left node
at role n1, the right node at role n2 — followed by a create clause
whose connector is exactly one of the two directed forms: an arrow from
n1 to n2 when the direction is RIGHT, and from n2 to n1 otherwise; no
undirected connector is possible. -/
theorem c6_edge_statement_structure (n1 n2 e : Neo4jItem) (d : Direction) :
    ∃ ls rs : String,
      (create_edge_query n1 n2 e d).text =
        "\n        MATCH " ++ (Neo4jItem.query_str "(" ")" n1 "n1").1 ++
        "\n        MATCH " ++ (Neo4jItem.query_str "(" ")" n2 "n2").1 ++
        "\n        CREATE (n1)" ++ ls ++ (Neo4jItem.query_str "[" "]" e "n").1 ++
        rs ++ "(n2)\n    " ∧
      (ls, rs) = (if d = Direction.right then ("-", "->") else ("<-", "-")) := by
  cases d
  · exact ⟨"<-", "-", rfl, rfl⟩
  · exact ⟨"-", "->", rfl, rfl⟩

/-- C9 counterexample: an empty label and a label containing statement
syntax are both spliced verbatim into the generated fragment — no
validation or escaping of the caller-supplied label happens. -/
theorem c9_counterexample :
    (Neo4jItem.query_str "(" ")" ⟨"", []⟩ "n").1 = "(n:  \x7b\x7d)" ∧
    (Neo4jItem.query_str "(" ")" ⟨"Person) DELETE (m", []⟩ "n").1 =
      "(n: Person) DELETE (m \x7b\x7d)" := by
  decide

/-- C9 amended: the caller-supplied label is spliced verbatim into the
label position of every generated fragment, with no validation and no
escaping; empty and unsafe labels pass through unchanged. -/
theorem c9_label_spliced_verbatim (label : String)
    (props : List (String × Option JValue)) (opening closing identifier : String) :
    (Neo4jItem.query_str opening closing ⟨label, props⟩ identifier).1 =
      opening ++ identifier ++ ": " ++ label ++ " " ++
        midText identifier ((filteredProps props).map (fun kv => kv.1)) ++ closing := by
  rfl
/-- C7: whenever some edge identifier parses to an endpoint id absent
from the node mapping (and the store itself does not fail and every edge
id parses), the run terminates with an UnknownNodeReference-style error,
commits nothing, and every edge statement actually issued in the run had
both of its endpoints resolvable — none was issued for a dangling edge. -/
theorem c7_unknown_node_reference (ora : StoreOracle) (clear : Bool)
    (nodes edges : List (String × Neo4jItem))
    (hora : ∀ q, ora q = true)
    (hparse : ∀ p ∈ edges, (edge_regex_match p.1).isSome = true)
    (hoff : ∃ p ∈ edges, ∃ l tok r, edge_regex_match p.1 = some (l, tok, r) ∧
        (lookupNode nodes l = none ∨ lookupNode nodes r = none)) :
    (∃ eid nid, (mainRun ora clear nodes edges).2 =
        some (UploadError.unknownNode eid nid)) ∧
    committedQueries (mainRun ora clear nodes edges).1 = [] ∧
    (∀ i ∈ issuedOf (mainRun ora clear nodes edges).1, ∀ eid, i.tag = Tag.edge eid →
      ∃ l tok r n1 n2, edge_regex_match eid = some (l, tok, r) ∧
        lookupNode nodes l = some n1 ∧ lookupNode nodes r = some n2) := by
  have hc := runClear_ok ora clear hora
  have hn := runNodes_ok ora nodes hora
  obtain ⟨hiss, herr⟩ := mainRun_full ora clear nodes edges hc hn
  obtain ⟨eid0, nid0, hres⟩ := runEdges_offender ora nodes hora edges hparse hoff
  refine ⟨⟨eid0, nid0, by rw [herr, hres]⟩, ?_, ?_⟩
  · rcases mainRun_shape ora clear nodes edges with ⟨is, e, heq⟩ | ⟨is, heq⟩
    · rw [heq]
      exact committed_runs_rollback is
    · rw [heq] at herr
      rw [hres] at herr
      simp at herr
  · intro i hi eid htag
    rw [hiss] at hi
    simp only [List.mem_append] at hi
    rcases hi with (hi | hi) | hi
    · rcases runClear_tags_mem ora clear i hi with ht | ht <;> rw [ht] at htag <;>
        exact Tag.noConfusion htag
    · obtain ⟨nid, ht⟩ := runNodes_tags ora nodes i hi
      rw [ht] at htag
      exact Tag.noConfusion htag
    · obtain ⟨eid2, l, tok, r, n1, n2, ht, hm, hl, hr⟩ :=
        runEdges_resolvable ora nodes edges i hi
      rw [ht] at htag
      injection htag with heid
      subst heid
      exact ⟨l, tok, r, n1, n2, hm, hl, hr⟩

/-- C8: the statements issued by a run decompose into a clear phase, a
node phase and an edge phase in that order: with clearing enabled the
delete-relationships statement precedes the delete-nodes statement and
both precede any creation, node creations all precede every edge
statement, and an edge statement is only ever issued after the node
phase completed for every node. -/
theorem c8_statement_phase_order (ora : StoreOracle) (clear : Bool)
    (nodes edges : List (String × Neo4jItem)) :
    ∃ cs ns es : List Issued,
      issuedOf (mainRun ora clear nodes edges).1 = cs ++ ns ++ es ∧
      (clear = false → cs = []) ∧
      (cs.map (fun i => i.tag) = [] ∨ cs.map (fun i => i.tag) = [Tag.clearRel] ∨
        cs.map (fun i => i.tag) = [Tag.clearRel, Tag.clearNode]) ∧
      (∀ i ∈ ns, ∃ nid, i.tag = Tag.node nid) ∧
      (∀ i ∈ es, ∃ eid, i.tag = Tag.edge eid) ∧
      (clear = true → (ns ≠ [] ∨ es ≠ []) →
        cs.map (fun i => i.tag) = [Tag.clearRel, Tag.clearNode]) ∧
      (es ≠ [] → ns.map (fun i => i.tag) = nodes.map (fun p => Tag.node p.1)) := by
  have hcs_cases := runClear_tags_cases ora clear
  rcases hC : runClear ora clear with ⟨isC, eC⟩
  rw [hC] at hcs_cases
  simp only at hcs_cases
  cases eC with
  | some e =>
    refine ⟨isC, [], [], ?_, ?_, hcs_cases, by simp, by simp, ?_, by simp⟩
    · rw [show (mainRun ora clear nodes edges).1 = isC.map Action.run ++ [Action.rollback]
          from by simp [mainRun, hC]]
      rw [issuedOf_run_rollback]
      simp
    · intro hcf
      rw [hcf] at hC
      simp [runClear] at hC
    · intro _ hne
      simp at hne
  | none =>
    have hclear_full : clear = true → isC.map (fun i => i.tag) =
        [Tag.clearRel, Tag.clearNode] := by
      intro hct
      rw [hct] at hC
      have := runClear_none_tags ora (by rw [hC])
      rw [hC] at this
      exact this
    have hclear_false : clear = false → isC = [] := by
      intro hcf
      rw [hcf] at hC
      simp [runClear] at hC
      exact hC
    rcases hN : runNodes ora nodes with ⟨isN, eN⟩
    cases eN with
    | some e =>
      refine ⟨isC, isN, [], ?_, hclear_false, hcs_cases, ?_, by simp,
              fun hct _ => hclear_full hct, by simp⟩
      · have hU : upload_graph ora nodes edges = (isN, some e) := by
          simp [upload_graph, hN]
        rw [show (mainRun ora clear nodes edges).1 =
            (isC ++ isN).map Action.run ++ [Action.rollback]
            from by simp [mainRun, hC, hU]]
        rw [issuedOf_run_rollback]
        simp
      · intro i hi
        have := runNodes_tags ora nodes i
        rw [hN] at this
        exact this hi
    | none =>
      obtain ⟨hiss, _⟩ := mainRun_full ora clear nodes edges (by rw [hC]) (by rw [hN])
      rw [hC, hN] at hiss
      refine ⟨isC, isN, (runEdges ora nodes edges).1, by simpa using hiss,
              hclear_false, hcs_cases, ?_, ?_, fun hct _ => hclear_full hct, ?_⟩
      · intro i hi
        have := runNodes_tags ora nodes i
        rw [hN] at this
        exact this hi
      · intro i hi
        obtain ⟨eid, l, tok, r, n1, n2, ht, _⟩ :=
          runEdges_resolvable ora nodes edges i hi
        exact ⟨eid, ht⟩
      · intro _
        have := runNodes_none_tags ora nodes (by rw [hN])
        rw [hN] at this
        exact this

/-- C7 witness: uploading edge "A->Z" with only node "A" present, over
an always-succeeding store, commits nothing. -/
theorem c7_witness :
    committedQueries (mainRun (fun _ => true) true
      [("A", ⟨"Person", [("name", some (JValue.scalar (JScalar.str "A")))]⟩)]
      [("A->Z", ⟨"KNOWS", []⟩)]).1 = [] :=
  (c7_unknown_node_reference (fun _ => true) true
    [("A", ⟨"Person", [("name", some (JValue.scalar (JScalar.str "A")))]⟩)]
    [("A->Z", ⟨"KNOWS", []⟩)]
    (fun _ => rfl)
    (by decide)
    ⟨("A->Z", ⟨"KNOWS", []⟩), by decide, "A", "->", "Z", by decide,
      Or.inr (by decide)⟩).2.1

/-- C8 witness: the phase decomposition at a concrete one-node,
one-edge run with clearing enabled. -/
theorem c8_witness :
    ∃ cs ns es : List Issued,
      issuedOf (mainRun (fun _ => true) true
        [("A", ⟨"Person", [("name", some (JValue.scalar (JScalar.str "A")))]⟩)]
        [("A->A", ⟨"KNOWS", []⟩)]).1 = cs ++ ns ++ es ∧
      (true = false → cs = []) ∧
      (cs.map (fun i => i.tag) = [] ∨ cs.map (fun i => i.tag) = [Tag.clearRel] ∨
        cs.map (fun i => i.tag) = [Tag.clearRel, Tag.clearNode]) ∧
      (∀ i ∈ ns, ∃ nid, i.tag = Tag.node nid) ∧
      (∀ i ∈ es, ∃ eid, i.tag = Tag.edge eid) ∧
      (true = true → (ns ≠ [] ∨ es ≠ []) →
        cs.map (fun i => i.tag) = [Tag.clearRel, Tag.clearNode]) ∧
      (es ≠ [] → ns.map (fun i => i.tag) =
        [("A", (⟨"Person", [("name", some (JValue.scalar (JScalar.str "A")))]⟩ :
          Neo4jItem))].map (fun p => Tag.node p.1)) :=
  c8_statement_phase_order (fun _ => true) true
    [("A", ⟨"Person", [("name", some (JValue.scalar (JScalar.str "A")))]⟩)]
    [("A->A", ⟨"KNOWS", []⟩)]
/-- C10: the parameter mappings built inside the edge statement — the
left node at role n1, the right node at role n2, the edge at role n —
have pairwise disjoint key sets, so the combined mapping of the edge
statement preserves every single binding, self-loops included. -/
theorem c10_role_param_disjointness (node1 node2 e : Neo4jItem) (d : Direction)
    (h1 : (node1.properties.map (fun kv => kv.1)).Nodup)
    (h2 : (node2.properties.map (fun kv => kv.1)).Nodup)
    (h3 : (e.properties.map (fun kv => kv.1)).Nodup) :
    (∀ k : String,
      ¬(k ∈ ((Neo4jItem.query_str "(" ")" node1 "n1").2).map (fun kv => kv.1) ∧
        k ∈ ((Neo4jItem.query_str "(" ")" node2 "n2").2).map (fun kv => kv.1)) ∧
      ¬(k ∈ ((Neo4jItem.query_str "(" ")" node1 "n1").2).map (fun kv => kv.1) ∧
        k ∈ ((Neo4jItem.query_str "[" "]" e "n").2).map (fun kv => kv.1)) ∧
      ¬(k ∈ ((Neo4jItem.query_str "(" ")" node2 "n2").2).map (fun kv => kv.1) ∧
        k ∈ ((Neo4jItem.query_str "[" "]" e "n").2).map (fun kv => kv.1))) ∧
    (∀ (k : String) (v : JValue),
      ((k, v) ∈ (Neo4jItem.query_str "(" ")" node1 "n1").2 ∨
       (k, v) ∈ (Neo4jItem.query_str "(" ")" node2 "n2").2 ∨
       (k, v) ∈ (Neo4jItem.query_str "[" "]" e "n").2) →
      ((create_edge_query node1 node2 e d).params).find? (fun kv => kv.1 == k) =
        some (k, v)) := by
  have hdisj12 : ∀ k : String,
      k ∈ ((Neo4jItem.query_str "(" ")" node1 "n1").2).map (fun kv => kv.1) →
      k ∈ ((Neo4jItem.query_str "(" ")" node2 "n2").2).map (fun kv => kv.1) → False := by
    intro k hk1 hk2
    obtain ⟨a, _, ha⟩ := mem_paramKeys _ _ _ _ _ hk1
    obtain ⟨b, _, hb⟩ := mem_paramKeys _ _ _ _ _ hk2
    exact paramName_n1_ne_n2 a b (ha ▸ hb ▸ rfl)
  have hdisj1e : ∀ k : String,
      k ∈ ((Neo4jItem.query_str "(" ")" node1 "n1").2).map (fun kv => kv.1) →
      k ∈ ((Neo4jItem.query_str "[" "]" e "n").2).map (fun kv => kv.1) → False := by
    intro k hk1 hk2
    obtain ⟨a, _, ha⟩ := mem_paramKeys _ _ _ _ _ hk1
    obtain ⟨b, _, hb⟩ := mem_paramKeys _ _ _ _ _ hk2
    exact paramName_n1_ne_n a b (ha ▸ hb ▸ rfl)
  have hdisj2e : ∀ k : String,
      k ∈ ((Neo4jItem.query_str "(" ")" node2 "n2").2).map (fun kv => kv.1) →
      k ∈ ((Neo4jItem.query_str "[" "]" e "n").2).map (fun kv => kv.1) → False := by
    intro k hk1 hk2
    obtain ⟨a, _, ha⟩ := mem_paramKeys _ _ _ _ _ hk1
    obtain ⟨b, _, hb⟩ := mem_paramKeys _ _ _ _ _ hk2
    exact paramName_n2_ne_n a b (ha ▸ hb ▸ rfl)
  refine ⟨fun k => ⟨fun hc => hdisj12 k hc.1 hc.2,
                    fun hc => hdisj1e k hc.1 hc.2,
                    fun hc => hdisj2e k hc.1 hc.2⟩, ?_⟩
  intro k v hmem
  have hparams : (create_edge_query node1 node2 e d).params =
      dictUnion (dictUnion (Neo4jItem.query_str "(" ")" node1 "n1").2
                           (Neo4jItem.query_str "(" ")" node2 "n2").2)
                (Neo4jItem.query_str "[" "]" e "n").2 := rfl
  rw [hparams]
  rcases hmem with hm1 | hm2 | hme
  · have hkmem : k ∈ ((Neo4jItem.query_str "(" ")" node1 "n1").2).map (fun kv => kv.1) :=
      List.mem_map.mpr ⟨(k, v), hm1, rfl⟩
    rw [dictUnion_find?_left _ _ _ (fun hc => hdisj1e k hkmem hc),
        dictUnion_find?_left _ _ _ (fun hc => hdisj12 k hkmem hc)]
    exact find?_key_eq_some _ _ _ (paramKeys_nodup node1 "(" ")" "n1" h1) hm1
  · have hkmem : k ∈ ((Neo4jItem.query_str "(" ")" node2 "n2").2).map (fun kv => kv.1) :=
      List.mem_map.mpr ⟨(k, v), hm2, rfl⟩
    rw [dictUnion_find?_left _ _ _ (fun hc => hdisj2e k hkmem hc),
        dictUnion_find?_right _ _ _ (fun hc => hdisj12 k hc hkmem)]
    exact find?_key_eq_some _ _ _ (paramKeys_nodup node2 "(" ")" "n2" h2) hm2
  · have hkmem : k ∈ ((Neo4jItem.query_str "[" "]" e "n").2).map (fun kv => kv.1) :=
      List.mem_map.mpr ⟨(k, v), hme, rfl⟩
    rw [dictUnion_find?_right _ _ _ (fun hc => ?_)]
    · exact find?_key_eq_some _ _ _ (paramKeys_nodup e "[" "]" "n" h3) hme
    · rcases keys_dictUnion_subset _ _ _ hc with h | h
      · exact hdisj1e k h hkmem
      · exact hdisj2e k h hkmem

/-- C10 witness: a self-loop whose node and edge share the property key
"name"; all three prefixed bindings survive in the merged parameters. -/
theorem c10_witness :
    ((create_edge_query
        ⟨"Person", [("name", some (JValue.scalar (JScalar.str "A")))]⟩
        ⟨"Person", [("name", some (JValue.scalar (JScalar.str "A")))]⟩
        ⟨"KNOWS", [("name", some (JValue.scalar (JScalar.str "k")))]⟩
        Direction.right).params).find? (fun kv => kv.1 == "n1_name") =
      some ("n1_name", JValue.scalar (JScalar.str "A")) ∧
    ((create_edge_query
        ⟨"Person", [("name", some (JValue.scalar (JScalar.str "A")))]⟩
        ⟨"Person", [("name", some (JValue.scalar (JScalar.str "A")))]⟩
        ⟨"KNOWS", [("name", some (JValue.scalar (JScalar.str "k")))]⟩
        Direction.right).params).find? (fun kv => kv.1 == "n2_name") =
      some ("n2_name", JValue.scalar (JScalar.str "A")) ∧
    ((create_edge_query
        ⟨"Person", [("name", some (JValue.scalar (JScalar.str "A")))]⟩
        ⟨"Person", [("name", some (JValue.scalar (JScalar.str "A")))]⟩
        ⟨"KNOWS", [("name", some (JValue.scalar (JScalar.str "k")))]⟩
        Direction.right).params).find? (fun kv => kv.1 == "n_name") =
      some ("n_name", JValue.scalar (JScalar.str "k")) := by
  have h := c10_role_param_disjointness
    ⟨"Person", [("name", some (JValue.scalar (JScalar.str "A")))]⟩
    ⟨"Person", [("name", some (JValue.scalar (JScalar.str "A")))]⟩
    ⟨"KNOWS", [("name", some (JValue.scalar (JScalar.str "k")))]⟩
    Direction.right (by decide) (by decide) (by decide)
  refine ⟨?_, ?_, ?_⟩
  · exact h.2 "n1_name" (JValue.scalar (JScalar.str "A")) (Or.inl (by decide))
  · exact h.2 "n2_name" (JValue.scalar (JScalar.str "A")) (Or.inr (Or.inl (by decide)))
  · exact h.2 "n_name" (JValue.scalar (JScalar.str "k")) (Or.inr (Or.inr (by decide)))

end Neo4jUpload
